import Mathlib

/-!
Verification development for the editing core of this repository:
rope (tree of chunks), buffer (rope + line-offset cache), history
(undo/redo stacks of snapshots and transactions) and editor (batching).

Text is embedded as a list of Unicode scalar values (`List Char`, matching
Rust `char`); byte positions are computed with `Char.utf8Size`, which agrees
with Rust's `char::len_utf8`.
-/

namespace Zed

/-- Text: sequence of Unicode scalar values, as Rust iterates it. -/
abbrev Str := List Char

/-- UTF-8 byte length of a text (Rust `str::len`). -/
def byteLen (s : Str) : Nat := (s.map Char.utf8Size).sum

/-- Number of `\n` characters in a text. -/
def countNL : Str → Nat
  | [] => 0
  | c :: rest => (if c = '\n' then 1 else 0) + countNL rest

/-- Byte offsets of the `\n` characters of a text, in order
(`Chunk::new` scans `text.bytes()` for `b'\n'`; since `\n` is one byte
in UTF-8, scanning scalar values with running byte offsets is the same). -/
def newlinePositionsOf : Str → List Nat
  | [] => []
  | c :: rest =>
    if c = '\n' then 0 :: (newlinePositionsOf rest).map (· + 1)
    else (newlinePositionsOf rest).map (· + c.utf8Size)

/-- Split a text at a byte budget: consumes characters while the remaining
budget is positive.  A character that begins strictly before the budget is
consumed even if it straddles it — exactly the `while end < len &&
!is_char_boundary(end) { end += 1 }` boundary alignment of
`Rope::from_text`.  At an aligned budget this is Rust's byte slicing
`(&s[..pos], &s[pos..])`. -/
def splitAtBytes : Str → Nat → Str × Str
  | [], _ => ([], [])
  | s, 0 => ([], s)
  | c :: rest, b + 1 =>
    let p := splitAtBytes rest (b + 1 - c.utf8Size)
    (c :: p.1, p.2)

/-- The chunking loop of `Rope::from_text`, cutting the text into pieces of
about `CHUNK_SIZE = 1024` bytes, each extended to a character boundary.
The loop is given as structural recursion on a fuel argument so that closed
instances reduce; every iteration consumes at least one character, so with
`fuel = s.length` (as `chunkText` passes) the fuel-exhaustion branch is
unreachable. -/
def chunkTextAux : Nat → Str → List Str
  | _, [] => []
  | fuel + 1, s => (splitAtBytes s 1024).1 :: chunkTextAux fuel (splitAtBytes s 1024).2
  | 0, s => [s]

def chunkText (s : Str) : List Str := chunkTextAux s.length s

/-! ## Chunk (`src/rope/chunk.rs`)

The Rust `Chunk` stores the text together with a list of newline byte
offsets computed once in `Chunk::new`; since every constructor goes through
`Chunk::new`, the cached list always equals `newlinePositionsOf text` and is
embedded as a derived function rather than a second field. -/

structure Chunk where
  text : Str
deriving DecidableEq

def Chunk.len (c : Chunk) : Nat := byteLen c.text

def Chunk.newlinePositions (c : Chunk) : List Nat := newlinePositionsOf c.text

def Chunk.countLines (c : Chunk) : Nat := c.newlinePositions.length

def Chunk.getNewlinePosition (c : Chunk) (i : Nat) : Option Nat :=
  c.newlinePositions[i]?

/-! ## Summary and aggregation tree (`src/tree`, `src/rope/metrics.rs`) -/

/-- `TextMetrics`: byte length plus newline count (`src/rope/metrics.rs`). -/
structure TextMetrics where
  len : Nat
  lines : Nat
deriving DecidableEq

def TextMetrics.add (a b : TextMetrics) : TextMetrics :=
  ⟨a.len + b.len, a.lines + b.lines⟩

/-- `impl Item for Chunk` (`src/rope/metrics.rs`). -/
def Chunk.summary (c : Chunk) : TextMetrics := ⟨c.len, c.countLines⟩

/-- Modelled from the spec: `SumTree::from_items` is called by
`Rope::from_text` but absent from the sources (`src/tree/sum_tree.rs` only
has `new`/`push`/`iter`).  Per the spec, `from_items(seq)` builds a tree
over the item sequence in one pass, every node's summary equals the combine
of its children's summaries, `iter()` yields the items in order and
`summary()` is the cached whole-tree aggregate.  The tree is therefore
represented by its in-order item sequence; `summary` is the combine of the
item summaries, which the node invariant makes equal to the cached root
summary. -/
structure SumTreeC where
  items : List Chunk
deriving DecidableEq

def SumTreeC.summary (t : SumTreeC) : TextMetrics :=
  t.items.foldr (fun c acc => TextMetrics.add c.summary acc) ⟨0, 0⟩

def SumTreeC.isEmpty (t : SumTreeC) : Bool := t.items.isEmpty

/-! ## Rope (`src/rope/rope.rs`) -/

structure Rope where
  tree : SumTreeC
deriving DecidableEq

def Rope.new : Rope := ⟨⟨[]⟩⟩

/-- `Rope::from_text`: chunk the text and build the tree in one pass. -/
def Rope.fromText (t : Str) : Rope :=
  if t = [] then Rope.new else ⟨⟨(chunkText t).map Chunk.mk⟩⟩

def Rope.len (r : Rope) : Nat := r.tree.summary.len

def Rope.isEmpty (r : Rope) : Bool := r.tree.isEmpty

def Rope.lineCount (r : Rope) : Nat := r.tree.summary.lines

/-- `Rope::to_string`: concatenation of the chunks in tree order. -/
def Rope.toStr (r : Rope) : Str := (r.tree.items.map Chunk.text).flatten

/-- Content of a line up to (excluding) its `\n`. -/
def takeToNL (s : Str) : Str := s.takeWhile (fun c => !(c = '\n'))

/-- `Rope::line` as a scan of the character stream.  The Rust loop carries
`current_line`, the accumulated content, and a found flag across the chunk
iteration; its state transitions are per character, and its `break`
conditions (`current_line > line_idx`) can only stop the scan after the
answer is determined, so iterating the concatenated chunk text is the same
function: skip characters counting newlines until `line_idx` newlines have
passed, then the line's content runs to the next `\n` (returned even when
empty); reaching the end of text while on the target line yields the
accumulated content, and running out of text before reaching the target
line (`found_line == false`) yields an absent value. -/
def flatLine : Str → Nat → Option Str
  | [], _ => none
  | c :: rest, 0 => some (takeToNL (c :: rest))
  | c :: rest, n + 1 => flatLine rest (if c = '\n' then n else n + 1)

def Rope.line (r : Rope) (lineIdx : Nat) : Option Str := flatLine r.toStr lineIdx

/-- Byte offset just after the n-th newline of `s`, or `byteLen s` when `s`
has fewer than `n` newlines (reference function for `Rope::line_to_byte`). -/
def lineStartB : Str → Nat → Nat
  | _, 0 => 0
  | [], _ + 1 => 0
  | c :: rest, n + 1 =>
    if c = '\n' then 1 + lineStartB rest n
    else c.utf8Size + lineStartB rest (n + 1)

/-- The chunk loop of `Rope::line_to_byte`: stream chunks accumulating a
line count and byte offset; once the target line falls inside a chunk,
resolve via the chunk's cached newline list. -/
def lineToByteAux : List Chunk → Nat → Nat → Nat → Nat
  | [], _, _, off => off
  | c :: rest, target, cur, off =>
    let m := c.countLines
    if target ≤ cur + m then
      let lineInChunk := target - cur
      if lineInChunk = 0 then off
      else
        match c.getNewlinePosition (lineInChunk - 1) with
        | some p => off + p + 1
        | none => off + c.len
    else lineToByteAux rest target (cur + m) (off + c.len)

def Rope.lineToByte (r : Rope) (targetLine : Nat) : Nat :=
  if targetLine = 0 then 0 else lineToByteAux r.tree.items targetLine 0 0

/-- `Rope::byte_to_line_col` as a scan of the character stream: consume
characters while the target byte offset has not been reached, bumping the
line and resetting the column at `\n`, counting characters otherwise.  In
the Rust loop, chunks wholly before the target update `line` by the chunk's
newline count and recompute `column` from the chunk's last newline (or add
all characters when the chunk has none), and the chunk containing the
target walks its characters until `bytes_counted >= offset_in_chunk` —
both agree with this single character walk.  A target on or past the end
of text consumes everything. -/
def b2lcAux : Str → Nat → Nat → Nat → Nat × Nat
  | [], _, line, col => (line, col)
  | c :: rest, target, line, col =>
    if target = 0 then (line, col)
    else if c = '\n' then b2lcAux rest (target - c.utf8Size) (line + 1) 0
    else b2lcAux rest (target - c.utf8Size) line (col + 1)

def Rope.byteToLineCol (r : Rope) (targetByte : Nat) : Nat × Nat :=
  if targetByte = 0 then (0, 0) else b2lcAux r.toStr targetByte 0 0

/-- First loop of `Rope::insert_optimized`: find the chunk index and
in-chunk offset where `pos` falls (accumulator starts at `(0, 0)`). -/
def findInsertPosAux : List Chunk → Nat → Nat → Nat → Nat × Nat → Nat × Nat
  | [], _, _, _, acc => acc
  | c :: rest, pos, curPos, idx, acc =>
    let chunkEnd := curPos + c.len
    if curPos ≤ pos ∧ pos < chunkEnd then (idx, pos - curPos)
    else
      findInsertPosAux rest pos chunkEnd (idx + 1)
        (if chunkEnd ≤ pos then (idx + 1, 0) else acc)

/-- `Rope::insert_optimized` (large-file path): splice re-chunked new text
at the located chunk, splitting the boundary chunk when the offset is
interior, and rebuild the tree from the chunk sequence. -/
def Rope.insertOptimized (r : Rope) (pos : Nat) (text : Str) : Rope :=
  let chunks := r.tree.items
  let loc := findInsertPosAux chunks pos 0 0 (0, 0)
  let newChunks :=
    if loc.1 < chunks.length ∧ 0 < loc.2 then
      (chunks.enum.map (fun pr =>
        if pr.1 < loc.1 then [pr.2]
        else if pr.1 = loc.1 then
          Chunk.mk (splitAtBytes pr.2.text loc.2).1 ::
            ((chunkText text).map Chunk.mk ++ [Chunk.mk (splitAtBytes pr.2.text loc.2).2])
        else [pr.2])).flatten
    else
      (chunks.enum.map (fun pr =>
        if pr.1 = loc.1 then (chunkText text).map Chunk.mk ++ [pr.2]
        else [pr.2])).flatten
  ⟨⟨newChunks⟩⟩

/-- `Rope::insert`: no-op for empty text; below the 1 MB threshold,
stringify, splice and re-chunk; above it, chunk-level splice.  (Rust's
`String::insert_str` at byte index `pos` is the byte split-and-concat;
call sites guarantee `pos` is a character boundary.) -/
def Rope.insert (r : Rope) (pos : Nat) (text : Str) : Rope :=
  if text = [] then r
  else if r.len < 1000000 then
    let content := r.toStr
    Rope.fromText ((splitAtBytes content pos).1 ++ text ++ (splitAtBytes content pos).2)
  else r.insertOptimized pos text

/-- Chunk walk of `Rope::delete_optimized`: keep chunks outside the range,
trim the ones overlapping it. -/
def deleteOptChunks : List Chunk → Nat → Nat → Nat → List Chunk
  | [], _, _, _ => []
  | c :: rest, start, stop, curPos =>
    let chunkEnd := curPos + c.len
    let kept :=
      if chunkEnd ≤ start then [c]
      else if stop ≤ curPos then [c]
      else
        let keepStart := if curPos < start then start - curPos else 0
        let keepEnd := if stop < chunkEnd then stop - curPos else c.len
        (if 0 < keepStart then [Chunk.mk (splitAtBytes c.text keepStart).1] else []) ++
        (if keepEnd < c.len then [Chunk.mk (splitAtBytes c.text keepEnd).2] else [])
    kept ++ deleteOptChunks rest start stop chunkEnd

def Rope.deleteOptimized (r : Rope) (start stop : Nat) : Rope :=
  ⟨⟨deleteOptChunks r.tree.items start stop 0⟩⟩

/-- `Rope::delete`: no-op when `start >= end`; below the 1 MB threshold,
stringify, drain the byte range and re-chunk (`String::drain(start..end)`
removes the bytes in the range); above it, chunk-level splice. -/
def Rope.delete (r : Rope) (start stop : Nat) : Rope :=
  if stop ≤ start then r
  else if r.len < 1000000 then
    let content := r.toStr
    Rope.fromText ((splitAtBytes content start).1 ++ (splitAtBytes content stop).2)
  else r.deleteOptimized start stop

/-! ## Line-offset cache (`src/buffer/line_cache.rs`)

`LineOffsetCache` is embedded with its semantic state: the sparse offset
window and its range, plus the total line count used for bounds checking.
The version counter, timestamps and hit/miss counters only feed performance
metrics and are omitted; `cached_range` is the pair `(rangeStart,
rangeEnd)` with `rangeEnd` exclusive, as in Rust's `Range<usize>`. -/

structure LineOffsetCache where
  cachedOffsets : List (Option Nat)
  rangeStart : Nat
  rangeEnd : Nat
  totalLines : Nat
deriving DecidableEq

def LineOffsetCache.new (totalLines : Nat) : LineOffsetCache :=
  ⟨[], 0, 0, totalLines⟩

def LineOffsetCache.isCached (lc : LineOffsetCache) (line : Nat) : Bool :=
  (lc.rangeStart ≤ line ∧ line < lc.rangeEnd) ∧
    line - lc.rangeStart < lc.cachedOffsets.length

def LineOffsetCache.getCachedOffset (lc : LineOffsetCache) (line : Nat) : Option Nat :=
  if lc.isCached line then lc.cachedOffsets.getD (line - lc.rangeStart) none
  else none

/-- `invalidate_lines`: clear the entry of every listed line inside the
cached window (`List.set` is a no-op out of range, like the guarded Rust
index). -/
def LineOffsetCache.invalidateLines (lc : LineOffsetCache) (lines : List Nat) :
    LineOffsetCache :=
  { lc with
    cachedOffsets := lines.foldl (fun offs line =>
      if lc.rangeStart ≤ line ∧ line < lc.rangeEnd then
        offs.set (line - lc.rangeStart) none
      else offs) lc.cachedOffsets }

/-- `expand_range_for_caching` with `CACHE_PADDING = 200`. -/
def LineOffsetCache.expandRangeForCaching (lc : LineOffsetCache) (s e : Nat) :
    Nat × Nat :=
  (s - 200, min (e + 200) lc.totalLines)

/-- `ensure_range_cached`: if the requested range is inside the window,
done; otherwise expand it by the padding and bulk-resolve each line below
`total_lines` with a fresh `line_to_byte`, replacing the whole window. -/
def LineOffsetCache.ensureRangeCached (lc : LineOffsetCache) (r : Rope) (s e : Nat) :
    LineOffsetCache :=
  if lc.rangeStart ≤ s ∧ e ≤ lc.rangeEnd then lc
  else
    let ns := (lc.expandRangeForCaching s e).1
    let ne := (lc.expandRangeForCaching s e).2
    { lc with
      rangeStart := ns
      rangeEnd := ne
      cachedOffsets := (List.range' ns (ne - ns)).map (fun line =>
        if line < lc.totalLines then some (r.lineToByte line) else none) }

/-- `should_expand_cache` (`Range::is_empty` is `start >= end`). -/
def LineOffsetCache.shouldExpandCache (lc : LineOffsetCache) (line : Nat) : Bool :=
  if lc.rangeEnd ≤ lc.rangeStart then true
  else (line < lc.rangeStart ∧ lc.rangeStart - line < 200) ∨
    (lc.rangeEnd ≤ line ∧ line - lc.rangeEnd < 200)

def LineOffsetCache.expandRangeToInclude (lc : LineOffsetCache) (line : Nat) :
    Nat × Nat :=
  if lc.rangeEnd ≤ lc.rangeStart then (line - 200, min (line + 200) lc.totalLines)
  else
    (if line < lc.rangeStart then line - 200 else lc.rangeStart,
     if lc.rangeEnd ≤ line then min (line + 200) lc.totalLines else lc.rangeEnd)

def LineOffsetCache.cacheMissCalculate (lc : LineOffsetCache) (line : Nat) (r : Rope) :
    LineOffsetCache :=
  if lc.shouldExpandCache line then
    lc.ensureRangeCached r (lc.expandRangeToInclude line).1 (lc.expandRangeToInclude line).2
  else lc

/-- `get_offsets_zero_alloc`: per requested line, serve the cached entry on
a hit; on a miss compute `rope.line_to_byte(line)` fresh, let
`cache_miss_calculate` possibly expand the window, and serve the fresh
value.  Returns the served offsets (the reusable scratch buffer is an
allocation optimization) together with the updated cache. -/
def LineOffsetCache.getOffsetsZeroAlloc (lc : LineOffsetCache) (lines : List Nat)
    (r : Rope) : List Nat × LineOffsetCache :=
  match lines with
  | [] => ([], lc)
  | line :: rest =>
    match lc.getCachedOffset line with
    | some off =>
      let p := lc.getOffsetsZeroAlloc rest r
      (off :: p.1, p.2)
    | none =>
      let off := r.lineToByte line
      let lc2 := lc.cacheMissCalculate line r
      let p := lc2.getOffsetsZeroAlloc rest r
      (off :: p.1, p.2)

/-- `update_line_count`: adopt the new total and truncate the cached window
when the document shrank below it (when even the window start is past the
new total, reset the start to 0 and drop all entries). -/
def LineOffsetCache.updateLineCount (lc : LineOffsetCache) (newTotal : Nat) :
    LineOffsetCache :=
  if newTotal < lc.rangeEnd then
    if newTotal < lc.rangeStart then
      { lc with
        totalLines := newTotal
        rangeEnd := newTotal
        rangeStart := 0
        cachedOffsets := [] }
    else
      { lc with
        totalLines := newTotal
        rangeEnd := newTotal
        cachedOffsets :=
          if newTotal - lc.rangeStart < lc.cachedOffsets.length then
            lc.cachedOffsets.take (newTotal - lc.rangeStart)
          else lc.cachedOffsets }
  else { lc with totalLines := newTotal }

/-! ## Point and Buffer (`src/buffer`)

`Offset` is a transparent wrapper around a byte position and is embedded
as `Nat`. -/

/-- `Point`: 0-based row and character column (`src/buffer/point.rs`). -/
structure Point where
  row : Nat
  column : Nat
deriving DecidableEq

/-- `Buffer` (`src/buffer/buffer.rs`): a rope behind a copy-on-write
handle plus the line-offset cache.  The reusable scratch buffer and the
predictive-scroll state only serve `update_scroll_prediction`, which no
embedded operation uses, and are omitted.  Sharing of the `Arc<Rope>`
between buffer clones is modelled separately by `RopeStore` below; here the
rope is held by value. -/
structure Buffer where
  rope : Rope
  lineCache : LineOffsetCache
deriving DecidableEq

def Buffer.new : Buffer := ⟨Rope.new, LineOffsetCache.new 0⟩

def Buffer.fromText (t : Str) : Buffer :=
  ⟨Rope.fromText t, LineOffsetCache.new (Rope.fromText t).lineCount⟩

def Buffer.len (b : Buffer) : Nat := b.rope.len

def Buffer.isEmpty (b : Buffer) : Bool := b.rope.isEmpty

/-- `Buffer::line_count`: one line for the empty rope, newline count plus
one otherwise. -/
def Buffer.lineCount (b : Buffer) : Nat :=
  if b.rope.isEmpty then 1 else b.rope.lineCount + 1

def Buffer.toText (b : Buffer) : Str := b.rope.toStr

def Buffer.line (b : Buffer) (lineIdx : Nat) : Option Str := b.rope.line lineIdx

/-- `Buffer::insert`: invalidate the cache — from the touched line onward
for a multi-line insert, just the touched line otherwise — then edit the
rope and adopt its new line count. -/
def Buffer.insert (b : Buffer) (offset : Nat) (text : Str) : Buffer :=
  let line := (b.rope.byteToLineCol offset).1
  let lc1 :=
    if text.contains '\n' then
      b.lineCache.invalidateLines (List.range' line (b.lineCount - line))
    else b.lineCache.invalidateLines [line]
  let r2 := b.rope.insert offset text
  ⟨r2, lc1.updateLineCount r2.lineCount⟩

/-- `Buffer::delete`: like insert, with the multi-line case detected by the
start and end lines of the deleted range differing. -/
def Buffer.delete (b : Buffer) (start stop : Nat) : Buffer :=
  let startLine := (b.rope.byteToLineCol start).1
  let endLine := (b.rope.byteToLineCol stop).1
  let lc1 :=
    if startLine ≠ endLine then
      b.lineCache.invalidateLines (List.range' startLine (b.lineCount - startLine))
    else b.lineCache.invalidateLines [startLine]
  let r2 := b.rope.delete start stop
  ⟨r2, lc1.updateLineCount r2.lineCount⟩

def Buffer.getLineOffsetsBatch (b : Buffer) (lines : List Nat) :
    List Nat × Buffer :=
  let p := b.lineCache.getOffsetsZeroAlloc lines b.rope
  (p.1, { b with lineCache := p.2 })

def Buffer.ensureRangeCached (b : Buffer) (s e : Nat) : Buffer :=
  { b with lineCache := b.lineCache.ensureRangeCached b.rope s e }

/-- `Buffer::point_to_offset`: line start byte plus the byte length of the
first `column` characters of the line; a missing line contributes only the
line start. -/
def Buffer.pointToOffset (b : Buffer) (p : Point) : Nat :=
  let lineStart := b.rope.lineToByte p.row
  match b.line p.row with
  | some lineText => lineStart + byteLen (lineText.take p.column)
  | none => lineStart

def Buffer.offsetToPoint (b : Buffer) (offset : Nat) : Point :=
  ⟨(b.rope.byteToLineCol offset).1, (b.rope.byteToLineCol offset).2⟩

/-! ## Transactions and history (`src/history`) -/

/-- `EditKind` (`src/history/transaction.rs`). -/
inductive EditKind where
  | insert (text : Str)
  | delete (text : Str)
  | replace (oldText newText : Str)
deriving DecidableEq

structure Transaction where
  cursorBefore : Point
  cursorAfter : Point
  edit : EditKind
deriving DecidableEq

def Transaction.insert (text : Str) (cursorBefore cursorAfter : Point) : Transaction :=
  ⟨cursorBefore, cursorAfter, EditKind.insert text⟩

def Transaction.delete (text : Str) (cursorBefore cursorAfter : Point) : Transaction :=
  ⟨cursorBefore, cursorAfter, EditKind.delete text⟩

def Transaction.replace (oldText newText : Str) (cursorBefore cursorAfter : Point) :
    Transaction :=
  ⟨cursorBefore, cursorAfter, EditKind.replace oldText newText⟩

/-- `History` (`src/history/history.rs`): undo/redo stacks of (buffer
snapshot, transaction) pairs plus the current buffer.  The Rust stacks are
`Vec`s pushed/popped at the back; here the head of the list is the top of
the stack.  The `Arc` around the snapshots is a sharing optimization
(modelled separately by `RopeStore`). -/
structure History where
  undoStack : List (Buffer × Transaction)
  redoStack : List (Buffer × Transaction)
  current : Buffer
deriving DecidableEq

def History.new (buffer : Buffer) : History := ⟨[], [], buffer⟩

/-- Modelled from the spec: the `History::push` in
`src/history/history.rs` takes `(new_buffer, transaction)` and snapshots
`self.current` as the before-state, but `Editor::flush_pending_insert`,
`backspace`, `delete` and `replace_all` all call a three-argument
`push(before, after, transaction)` that is absent from the sources.  Per
the spec: `undo_stack.push((before,txn)); current=after;
redo_stack.clear()`. -/
def History.push (h : History) (before after : Buffer) (txn : Transaction) : History :=
  ⟨(before, txn) :: h.undoStack, [], after⟩

/-- Modelled from the spec: `update_current(new)` is called by
`Editor::insert`/`undo` but absent from `src/history/history.rs`.  Per the
spec it replaces `current` only and records nothing. -/
def History.updateCurrent (h : History) (buffer : Buffer) : History :=
  { h with current := buffer }

/-- `History::undo`: pop `(previous, txn)` off the undo stack, push
`(current, txn)` onto the redo stack, make `previous` current and return
the transaction; absent value on an empty stack. -/
def History.undo (h : History) : Option Transaction × History :=
  match h.undoStack with
  | [] => (none, h)
  | (previous, txn) :: rest =>
    (some txn, ⟨rest, (h.current, txn) :: h.redoStack, previous⟩)

/-- `History::redo`: symmetric to undo. -/
def History.redo (h : History) : Option Transaction × History :=
  match h.redoStack with
  | [] => (none, h)
  | (next, txn) :: rest =>
    (some txn, ⟨(h.current, txn) :: h.undoStack, rest, next⟩)

def History.canUndo (h : History) : Bool := !h.undoStack.isEmpty

def History.canRedo (h : History) : Bool := !h.redoStack.isEmpty

/-! ## Editor (`src/editor`) -/

/-- `Selection` (`src/editor/selection.rs`); the `end` point is named
`stop` because `end` is reserved. -/
structure Selection where
  start : Point
  stop : Point
deriving DecidableEq

def Selection.cursor (p : Point) : Selection := ⟨p, p⟩

/-- Rust `char::is_whitespace`: the Unicode `White_Space` property. -/
def isRustWhitespace (c : Char) : Bool :=
  let n := c.toNat
  (9 ≤ n ∧ n ≤ 13) ∨ n = 32 ∨ n = 0x85 ∨ n = 0xA0 ∨ n = 0x1680 ∨
    (0x2000 ≤ n ∧ n ≤ 0x200A) ∨ n = 0x2028 ∨ n = 0x2029 ∨ n = 0x202F ∨
    n = 0x205F ∨ n = 0x3000

/-- Rust `str::trim`: strip `White_Space` from both ends. -/
def trimStr (s : Str) : Str :=
  ((s.dropWhile isRustWhitespace).reverse.dropWhile isRustWhitespace).reverse

/-- Rust `str::matches(c).count`. -/
def countCharOcc (c : Char) (s : Str) : Nat := s.countP (fun x => x = c)

/-- `IndentCalculator::get_line_indent`: leading whitespace of a line. -/
def getLineIndent (l : Str) : Str :=
  l.takeWhile (fun c => isRustWhitespace c && !(c = '\n'))

/-- `IndentCalculator::fallback_indent_with_rope` with the constructor's
`indent_width = 4`: keep the current line's leading whitespace, adding one
indent level when the line opens more brackets than it closes or ends in a
colon.  `Editor`s modelled here have `file_path == None`, so
`calculate_indent_with_rope` always takes this fallback path (the
tree-sitter path needs a detected language). -/
def fallbackIndentWithRope (r : Rope) (cursorLine : Nat) : Str :=
  match r.line cursorLine with
  | some lineText =>
    let indent := getLineIndent lineText
    let trimmed := trimStr lineText
    let opens := countCharOcc '{' trimmed + countCharOcc '[' trimmed +
      countCharOcc '(' trimmed
    let closes := countCharOcc '}' trimmed + countCharOcc ']' trimmed +
      countCharOcc ')' trimmed
    if closes < opens ∨ trimmed.getLast? = some ':' then
      indent ++ List.replicate 4 ' '
    else indent
  | none => []

/-- `Editor` (`src/editor/editor.rs`): history + selection + version +
word-batching state.  `file_path` is `None` for every editor built here
(`Editor::new`); `indent_calculator` carries only the constant
`indent_width = 4`, inlined into `fallbackIndentWithRope`; `last_edit_time`
is written but never read and is omitted. -/
structure Editor where
  history : History
  selection : Selection
  version : Nat
  pendingInsert : Str
  pendingStartCursor : Option Point
  pendingStartBuffer : Option Buffer
deriving DecidableEq

def Editor.new : Editor :=
  ⟨History.new Buffer.new, Selection.cursor ⟨0, 0⟩, 0, [], none, none⟩

def Editor.fromText (t : Str) : Editor :=
  ⟨History.new (Buffer.fromText t), Selection.cursor ⟨0, 0⟩, 0, [], none, none⟩

def Editor.buffer (e : Editor) : Buffer := e.history.current

def Editor.cursor (e : Editor) : Point := e.selection.stop

def Editor.setCursor (e : Editor) (p : Point) : Editor :=
  { e with selection := Selection.cursor p }

def Editor.text (e : Editor) : Str := e.buffer.toText

def Editor.lineCount (e : Editor) : Nat := e.buffer.lineCount

/-- `Editor::flush_pending_insert`: commit the pending word as one
transaction using the saved before-snapshot and the current buffer, then
clear the batching state.  With no pending text this is a no-op; with
pending text but no start cursor only the pending state is cleared. -/
def Editor.flushPendingInsert (e : Editor) : Editor :=
  if e.pendingInsert = [] then e
  else
    match e.pendingStartCursor with
    | none => { e with pendingInsert := [], pendingStartCursor := none }
    | some startCursor =>
      let txn := Transaction.insert e.pendingInsert startCursor e.cursor
      let h2 :=
        match e.pendingStartBuffer with
        | some beforeBuffer => e.history.push beforeBuffer e.buffer txn
        | none => e.history.push e.buffer e.buffer txn
      { e with
        history := h2
        pendingInsert := []
        pendingStartCursor := none
        pendingStartBuffer := none }

/-- `Editor::insert`: whitespace input first flushes the pending word and
is applied directly via `update_current` (never batched; a lone newline
gains the auto-indent suffix); other input opens a batch if none is open
(saving the pre-edit buffer and cursor), applies the edit live and appends
the text to the pending word. -/
def Editor.insert (e : Editor) (text : Str) : Editor :=
  let cursorBefore := e.cursor
  if text.all isRustWhitespace then
    let e1 := e.flushPendingInsert
    let offset := e1.buffer.pointToOffset cursorBefore
    let textToInsert :=
      if text = ['\n'] then
        '\n' :: fallbackIndentWithRope e1.buffer.rope cursorBefore.row
      else text
    let newBuffer := e1.buffer.insert offset textToInsert
    let cursorAfter := newBuffer.offsetToPoint (offset + byteLen textToInsert)
    { e1 with
      history := e1.history.updateCurrent newBuffer
      selection := Selection.cursor cursorAfter
      version := e1.version + 1 }
  else
    let e1 :=
      match e.pendingStartCursor with
      | none =>
        { e with
          pendingStartCursor := some cursorBefore
          pendingStartBuffer := some e.buffer }
      | some _ => e
    let offset := e1.buffer.pointToOffset cursorBefore
    let newBuffer := e1.buffer.insert offset text
    let cursorAfter := newBuffer.offsetToPoint (offset + byteLen text)
    { e1 with
      history := e1.history.updateCurrent newBuffer
      selection := Selection.cursor cursorAfter
      version := e1.version + 1
      pendingInsert := e1.pendingInsert ++ text }

/-- `Editor::undo`: with pending text, discard it — restore the batch's
start snapshot and cursor without recording anything; otherwise pop one
transaction from history and restore its `cursor_before`. -/
def Editor.undo (e : Editor) : Editor :=
  if e.pendingInsert = [] then
    match e.history.undo with
    | (some txn, h2) =>
      { e with
        history := h2
        selection := Selection.cursor txn.cursorBefore
        version := e.version + 1 }
    | (none, h2) => { e with history := h2 }
  else
    match e.pendingStartBuffer with
    | some beforeBuffer =>
      let e1 := { e with history := e.history.updateCurrent beforeBuffer }
      let e2 :=
        match e1.pendingStartCursor with
        | some startCursor => e1.setCursor startCursor
        | none => e1
      { e2 with
        pendingInsert := []
        pendingStartCursor := none
        pendingStartBuffer := none
        version := e2.version + 1 }
    | none =>
      { e with
        pendingInsert := []
        pendingStartCursor := none
        pendingStartBuffer := none
        version := e.version + 1 }

/-- `Editor::redo`: clear any pending batch, pop one transaction from the
redo stack and restore its `cursor_after`. -/
def Editor.redo (e : Editor) : Editor :=
  let e1 :=
    { e with
      pendingInsert := []
      pendingStartCursor := none
      pendingStartBuffer := none }
  match e1.history.redo with
  | (some txn, h2) =>
    { e1 with
      history := h2
      selection := Selection.cursor txn.cursorAfter
      version := e1.version + 1 }
  | (none, h2) => { e1 with history := h2 }

/-- `Editor::can_undo`: pending text or a non-empty undo stack. -/
def Editor.canUndo (e : Editor) : Bool :=
  !e.pendingInsert.isEmpty || e.history.canUndo

def Editor.canRedo (e : Editor) : Bool := e.history.canRedo

/-! ## Copy-on-write sharing of the rope (`Arc<Rope>` + `Arc::make_mut`)

`Buffer` holds its rope behind `Arc<Rope>`; `Buffer::clone` copies the
pointer (bumping the reference count) and `Buffer::insert`/`delete` call
`Arc::make_mut`, which mutates in place only when the count is 1 and
otherwise clones the rope into a private allocation first.  To state the
frame property this sharing is made explicit: a store of slots, each a rope
value with its reference count, and buffer handles that name a slot. -/

structure RopeStore where
  slots : List (Rope × Nat)
deriving DecidableEq

def RopeStore.readRope (s : RopeStore) (i : Nat) : Rope :=
  (s.slots.getD i (Rope.new, 0)).1

def RopeStore.refCount (s : RopeStore) (i : Nat) : Nat :=
  (s.slots.getD i (Rope.new, 0)).2

/-- `Buffer::clone` on the rope handle: same slot, one more reference. -/
def RopeStore.cloneRef (s : RopeStore) (i : Nat) : RopeStore :=
  ⟨s.slots.set i (s.readRope i, s.refCount i + 1)⟩

/-- `Arc::make_mut`: with a unique reference, mutate in place; otherwise
clone the rope into a fresh slot (dropping one reference from the shared
slot) and return the new slot. -/
def RopeStore.makeMut (s : RopeStore) (i : Nat) : RopeStore × Nat :=
  if s.refCount i ≤ 1 then (s, i)
  else
    (⟨(s.slots.set i (s.readRope i, s.refCount i - 1)) ++ [(s.readRope i, 1)]⟩,
      s.slots.length)

/-- `Buffer::insert` seen through the store: `Arc::make_mut` then the rope
edit, the handle now naming the possibly fresh slot. -/
def RopeStore.insertViaHandle (s : RopeStore) (i : Nat) (pos : Nat) (text : Str) :
    RopeStore × Nat :=
  let p := s.makeMut i
  let s2 := p.1
  let j := p.2
  (⟨s2.slots.set j ((s2.readRope j).insert pos text, s2.refCount j)⟩, j)

/-- `Buffer::delete` seen through the store. -/
def RopeStore.deleteViaHandle (s : RopeStore) (i : Nat) (start stop : Nat) :
    RopeStore × Nat :=
  let p := s.makeMut i
  let s2 := p.1
  let j := p.2
  (⟨s2.slots.set j ((s2.readRope j).delete start stop, s2.refCount j)⟩, j)


/-! ## Concrete scenario instances -/

/-- Spec scenario 1: the characters "h","e","l","l","o" and then " " typed
into an empty editor. -/
def helloSpaceEditor : Editor :=
  (((((Editor.new.insert ['h']).insert ['e']).insert ['l']).insert ['l']).insert
    ['o']).insert [' ']

/-- Cache-staleness input: "a\nb\nc" with lines 0..2 brought into the
line-offset cache, then a newline-free insert of "x" at byte offset 0. -/
def staleCacheBuffer : Buffer :=
  ((Buffer.fromText ['a', '\n', 'b', '\n', 'c']).ensureRangeCached 0 2).insert 0 ['x']

/-! ## Theorems -/

theorem splitAtBytes_append (s : Str) (b : Nat) :
    (splitAtBytes s b).1 ++ (splitAtBytes s b).2 = s := by
  induction s generalizing b with
  | nil => cases b <;> rfl
  | cons c rest ih =>
    cases b with
    | zero => rfl
    | succ n => simpa [splitAtBytes] using ih (n + 1 - c.utf8Size)

theorem splitAtBytes_snd_le (s : Str) (b : Nat) :
    (splitAtBytes s b).2.length ≤ s.length := by
  induction s generalizing b with
  | nil => cases b <;> simp [splitAtBytes]
  | cons c rest ih =>
    cases b with
    | zero => simp [splitAtBytes]
    | succ n =>
      have := ih (n + 1 - c.utf8Size)
      simp only [splitAtBytes, List.length_cons]
      omega

theorem splitAtBytes_snd_lt (s : Str) (h : s ≠ []) :
    (splitAtBytes s 1024).2.length < s.length := by
  cases s with
  | nil => exact absurd rfl h
  | cons c rest =>
    have := splitAtBytes_snd_le rest (1023 + 1 - c.utf8Size)
    simp only [splitAtBytes, List.length_cons]
    omega

theorem chunkTextAux_flatten (fuel : Nat) (s : Str) :
    (chunkTextAux fuel s).flatten = s := by
  induction fuel generalizing s with
  | zero => cases s <;> simp [chunkTextAux]
  | succ n ih =>
    cases s with
    | nil => simp [chunkTextAux]
    | cons c rest =>
      simp only [chunkTextAux, List.flatten_cons, ih]
      exact splitAtBytes_append (c :: rest) 1024

theorem chunkText_flatten (s : Str) : (chunkText s).flatten = s :=
  chunkTextAux_flatten s.length s

theorem chunkText_ne_nil (s : Str) (h : s ≠ []) : chunkText s ≠ [] := by
  cases s with
  | nil => exact absurd rfl h
  | cons c rest => simp [chunkText, chunkTextAux]

theorem byteLen_append (a b : Str) : byteLen (a ++ b) = byteLen a + byteLen b := by
  simp [byteLen]

theorem countNL_append (a b : Str) : countNL (a ++ b) = countNL a + countNL b := by
  induction a with
  | nil => simp [countNL]
  | cons c rest ih => simp [countNL, ih]; omega

theorem newlinePositionsOf_length (s : Str) :
    (newlinePositionsOf s).length = countNL s := by
  induction s with
  | nil => rfl
  | cons c rest ih =>
    by_cases h : c = '\n' <;> simp [newlinePositionsOf, countNL, h, ih] <;> omega

theorem summary_of_strings (css : List Str) :
    (SumTreeC.mk (css.map Chunk.mk)).summary = ⟨byteLen css.flatten, countNL css.flatten⟩ := by
  induction css with
  | nil => rfl
  | cons c rest ih =>
    simp only [List.map_cons, SumTreeC.summary, List.foldr_cons, List.flatten_cons]
    have : (SumTreeC.mk (rest.map Chunk.mk)).summary =
        ⟨byteLen rest.flatten, countNL rest.flatten⟩ := ih
    simp only [SumTreeC.summary] at this
    rw [this]
    simp [TextMetrics.add, Chunk.summary, Chunk.len, Chunk.countLines,
      Chunk.newlinePositions, newlinePositionsOf_length, byteLen_append,
      countNL_append]

theorem Rope.fromText_toStr (t : Str) : (Rope.fromText t).toStr = t := by
  by_cases h : t = []
  · subst h; rfl
  · simp only [Rope.fromText, h, if_false, Rope.toStr]
    rw [List.map_map]
    have : Chunk.text ∘ Chunk.mk = id := rfl
    rw [this, List.map_id]
    exact chunkText_flatten t

theorem Rope.fromText_len (t : Str) : (Rope.fromText t).len = byteLen t := by
  by_cases h : t = []
  · subst h; rfl
  · simp only [Rope.fromText, h, if_false, Rope.len]
    rw [summary_of_strings, chunkText_flatten]

theorem Rope.fromText_lineCount (t : Str) : (Rope.fromText t).lineCount = countNL t := by
  by_cases h : t = []
  · subst h; rfl
  · simp only [Rope.fromText, h, if_false, Rope.lineCount]
    rw [summary_of_strings, chunkText_flatten]


theorem Rope.fromText_isEmpty_false (t : Str) (h : t ≠ []) :
    (Rope.fromText t).isEmpty = false := by
  simp only [Rope.fromText, h, if_false, Rope.isEmpty, SumTreeC.isEmpty]
  have := chunkText_ne_nil t h
  simp [List.isEmpty_iff, this]

theorem isEmpty_append_right (a t : Str) (h : t ≠ []) : (a ++ t).isEmpty = false := by
  cases a <;> cases t <;> simp_all

/-! ## Claim theorems -/

/-- C1: starting from an empty `Editor`, inserting "h","e","l","l","o" and
then " " yields buffer text "hello " with exactly one committed
`Transaction` on the undo stack, and a single `undo()` yields text "" and
cursor (0,0), not an intermediate state. -/
theorem C1_word_batch_single_undo :
    helloSpaceEditor.text = ['h', 'e', 'l', 'l', 'o', ' '] ∧
    helloSpaceEditor.history.undoStack.length = 1 ∧
    helloSpaceEditor.undo.text = [] ∧
    helloSpaceEditor.undo.cursor = ⟨0, 0⟩ := by decide

/-- C2: after scenario 1's single undo, one `redo()` restores text
"hello " but puts the cursor at the flushed transaction's `cursor_after`
(0,5) — the position after the batched word "hello", because the space was
applied via `update_current` outside any transaction — and not at (0,6) as
the claim, the spec and the repo's own test
`test_redo_single_keypress_after_undo` state. -/
theorem C2_redo_cursor_stops_after_word :
    helloSpaceEditor.undo.redo.text = ['h', 'e', 'l', 'l', 'o', ' '] ∧
    helloSpaceEditor.undo.redo.cursor = ⟨0, 5⟩ ∧
    ¬ helloSpaceEditor.undo.redo.cursor = ⟨0, 6⟩ := by decide

/-- C3: `History.push(before, after, txn)` pushes `(before, txn)` onto the
undo stack, makes `after` current and clears the redo stack, so `can_redo`
is false immediately after every push. -/
theorem C3_push_sets_current_clears_redo (h : History) (before after : Buffer)
    (txn : Transaction) :
    (h.push before after txn).undoStack = (before, txn) :: h.undoStack ∧
    (h.push before after txn).current = after ∧
    (h.push before after txn).redoStack = [] ∧
    (h.push before after txn).canRedo = false :=
  ⟨rfl, rfl, rfl, rfl⟩

/-- C4: after caching lines 0..2 of "a\nb\nc" and then a newline-free
insert of "x" at offset 0 (touching only line 0), the cache still serves
byte offset 2 for line 1 while a fresh `line_to_byte` over the current rope
gives 3: `Buffer::insert` invalidates only the touched line for
single-line edits even though the byte offsets of every following line have
shifted, so the served value differs from a fresh computation. -/
theorem C4_single_line_insert_serves_stale_offset :
    (staleCacheBuffer.getLineOffsetsBatch [1]).1 = [2] ∧
    staleCacheBuffer.rope.lineToByte 1 = 3 ∧
    ¬ (staleCacheBuffer.getLineOffsetsBatch [1]).1 =
        [staleCacheBuffer.rope.lineToByte 1] := by decide

/-- C8: degenerate inputs are no-ops — a `Rope::insert` of empty text and a
`Rope::delete` with `start == end` return the rope unchanged, and
`History::undo`/`History::redo` on an empty undo/redo stack return an
absent value leaving `current` and both stacks unchanged. -/
theorem C8_degenerate_inputs_are_noops :
    (∀ (r : Rope) (pos : Nat), r.insert pos [] = r) ∧
    (∀ (r : Rope) (pos : Nat), r.delete pos pos = r) ∧
    (∀ (rs : List (Buffer × Transaction)) (cur : Buffer),
      History.undo ⟨[], rs, cur⟩ = (none, ⟨[], rs, cur⟩)) ∧
    (∀ (us : List (Buffer × Transaction)) (cur : Buffer),
      History.redo ⟨us, [], cur⟩ = (none, ⟨us, [], cur⟩)) := by
  refine ⟨fun r pos => by simp [Rope.insert], fun r pos => by simp [Rope.delete],
    fun rs cur => rfl, fun us cur => rfl⟩

/-- C9 counterexample: inserting a single space into a fresh editor is an
edit — the text becomes " " and the version is bumped — yet `can_undo()`
is still false, because whitespace input is applied live via
`update_current` and never committed or batched. -/
theorem C9_whitespace_edit_not_undoable :
    (Editor.new.insert [' ']).text = [' '] ∧
    (Editor.new.insert [' ']).version = 1 ∧
    (Editor.new.insert [' ']).canUndo = false := by decide

/-- C9 amended: `can_undo()` is false on a fresh editor and true after any
insert whose text is not all-whitespace (such input always joins the
pending batch); whitespace-only inserts commit nothing and can leave
`can_undo()` false even though an edit occurred. -/
theorem C9_canUndo_after_nonwhitespace_insert :
    Editor.new.canUndo = false ∧
    ∀ (e : Editor) (t : Str), t.all isRustWhitespace = false →
      (e.insert t).canUndo = true := by
  refine ⟨rfl, fun e t ht => ?_⟩
  have htne : t ≠ [] := by
    intro hnil
    subst hnil
    simp at ht
  cases hp : e.pendingStartCursor with
  | none =>
    simp [Editor.insert, ht, hp, Editor.canUndo, History.canUndo,
      isEmpty_append_right _ t htne]
  | some q =>
    simp [Editor.insert, ht, hp, Editor.canUndo, History.canUndo,
      isEmpty_append_right _ t htne]

theorem C9_canUndo_after_nonwhitespace_insert_witness :
    (['h'].all isRustWhitespace = false) ∧
    (Editor.new.insert ['h']).canUndo = true :=
  ⟨by decide, C9_canUndo_after_nonwhitespace_insert.2 Editor.new ['h'] (by decide)⟩

/-- C10: for every text T, `Buffer::from_text(T).line_count()` is the
number of newlines in T plus one (so 1 for the empty buffer), while
`Rope::line_count()` is just the newline count — one less than the
buffer's value for the same non-empty text. -/
theorem C10_buffer_lineCount_is_newlines_plus_one (t : Str) :
    (Buffer.fromText t).lineCount = countNL t + 1 ∧
    (Rope.fromText t).lineCount = countNL t := by
  refine ⟨?_, Rope.fromText_lineCount t⟩
  by_cases h : t = []
  · subst h; rfl
  · have hne := Rope.fromText_isEmpty_false t h
    simp [Buffer.lineCount, Buffer.fromText, hne, Rope.fromText_lineCount]

/-! ## Line arithmetic lemmas for point conversion -/

theorem byteLen_nil : byteLen [] = 0 := rfl

theorem byteLen_cons (c : Char) (s : Str) :
    byteLen (c :: s) = c.utf8Size + byteLen s := by
  simp [byteLen]

theorem countNL_cons (c : Char) (s : Str) :
    countNL (c :: s) = (if c = '\n' then 1 else 0) + countNL s := rfl

theorem lineStartB_cons_succ (c : Char) (s : Str) (m : Nat) :
    lineStartB (c :: s) (m + 1) =
      if c = '\n' then 1 + lineStartB s m
      else c.utf8Size + lineStartB s (m + 1) := rfl

theorem utf8Size_newline : ('\n').utf8Size = 1 := by decide

theorem lineStartB_le (s : Str) : ∀ n, lineStartB s n ≤ byteLen s := by
  induction s with
  | nil => intro n; cases n <;> simp [lineStartB, byteLen_nil]
  | cons c rest ih =>
    intro n
    cases n with
    | zero => simp [lineStartB]
    | succ m =>
      rw [lineStartB_cons_succ, byteLen_cons]
      by_cases hc : c = '\n'
      · have := ih m
        simp only [hc, if_true, utf8Size_newline]
        omega
      · have := ih (m + 1)
        simp only [hc, if_false]
        omega

theorem lineStartB_of_countNL_lt (s : Str) :
    ∀ n, countNL s < n → lineStartB s n = byteLen s := by
  induction s with
  | nil =>
    intro n h
    cases n with
    | zero => omega
    | succ m => simp [lineStartB, byteLen_nil]
  | cons c rest ih =>
    intro n h
    rw [countNL_cons] at h
    cases n with
    | zero => omega
    | succ m =>
      rw [lineStartB_cons_succ, byteLen_cons]
      by_cases hc : c = '\n'
      · simp only [hc, if_true] at h ⊢
        rw [ih m (by omega), utf8Size_newline]
      · simp only [hc, if_false] at h ⊢
        rw [ih (m + 1) (by omega)]

theorem lineStartB_append (a b : Str) :
    ∀ n, lineStartB (a ++ b) n =
      if n ≤ countNL a then lineStartB a n
      else byteLen a + lineStartB b (n - countNL a) := by
  induction a with
  | nil =>
    intro n
    cases n with
    | zero => simp [lineStartB]
    | succ m => simp [lineStartB, countNL, byteLen_nil]
  | cons c rest ih =>
    intro n
    cases n with
    | zero => simp [lineStartB]
    | succ m =>
      simp only [List.cons_append, lineStartB_cons_succ, countNL_cons, byteLen_cons]
      by_cases hc : c = '\n'
      · simp only [hc, if_true, utf8Size_newline, ih m]
        by_cases hm : m ≤ countNL rest
        · rw [if_pos hm, if_pos (by omega)]
        · rw [if_neg hm, if_neg (by omega)]
          have harg : m + 1 - (1 + countNL rest) = m - countNL rest := by omega
          rw [harg]
          omega
      · simp only [hc, if_false, ih (m + 1)]
        by_cases hm : m + 1 ≤ countNL rest
        · rw [if_pos hm, if_pos (by omega)]
        · rw [if_neg hm, if_neg (by omega)]
          have harg : m + 1 - (0 + countNL rest) = m + 1 - countNL rest := by omega
          rw [harg]
          omega

theorem newlinePositionsOf_get (s : Str) :
    ∀ k, k < (newlinePositionsOf s).length →
      ∃ p, (newlinePositionsOf s)[k]? = some p ∧ p + 1 = lineStartB s (k + 1) := by
  induction s with
  | nil => intro k h; simp [newlinePositionsOf] at h
  | cons c rest ih =>
    intro k h
    by_cases hc : c = '\n'
    · cases k with
      | zero =>
        refine ⟨0, ?_, ?_⟩
        · simp [newlinePositionsOf, hc]
        · rw [lineStartB_cons_succ, if_pos hc]
          simp [lineStartB]
      | succ k =>
        simp only [newlinePositionsOf, hc, if_true, List.length_cons,
          List.length_map] at h
        obtain ⟨p, hp, hp1⟩ := ih k (by rw [newlinePositionsOf_length] at h ⊢ <;> omega)
        refine ⟨p + 1, ?_, ?_⟩
        · simp [newlinePositionsOf, hc, List.getElem?_map, hp]
        · rw [lineStartB_cons_succ, if_pos hc]
          omega
    · simp only [newlinePositionsOf, hc, if_false, List.length_map] at h
      obtain ⟨p, hp, hp1⟩ := ih k h
      refine ⟨p + c.utf8Size, ?_, ?_⟩
      · simp [newlinePositionsOf, hc, List.getElem?_map, hp]
      · rw [lineStartB_cons_succ, if_neg hc]
        omega

theorem chunk_countLines_eq (c : Chunk) : c.countLines = countNL c.text := by
  simp [Chunk.countLines, Chunk.newlinePositions, newlinePositionsOf_length]

theorem lineToByteAux_eq (cs : List Chunk) :
    ∀ target cur off, cur < target →
      lineToByteAux cs target cur off =
        off + lineStartB ((cs.map Chunk.text).flatten) (target - cur) := by
  induction cs with
  | nil =>
    intro target cur off h
    simp only [lineToByteAux, List.map_nil, List.flatten_nil]
    cases hn : target - cur with
    | zero => omega
    | succ m => simp [lineStartB]
  | cons c rest ih =>
    intro target cur off h
    simp only [lineToByteAux, List.map_cons, List.flatten_cons]
    by_cases hcase : target ≤ cur + c.countLines
    · rw [if_pos hcase]
      have hne : ¬ (target - cur = 0) := by omega
      rw [if_neg hne]
      have hk : target - cur - 1 < (newlinePositionsOf c.text).length := by
        rw [newlinePositionsOf_length]
        rw [chunk_countLines_eq] at hcase
        omega
      obtain ⟨p, hp, hp1⟩ := newlinePositionsOf_get c.text (target - cur - 1) hk
      have hget : c.getNewlinePosition (target - cur - 1) = some p := by
        simpa [Chunk.getNewlinePosition, Chunk.newlinePositions] using hp
      rw [hget, lineStartB_append, if_pos (by rw [chunk_countLines_eq] at hcase; omega)]
      have harg : target - cur - 1 + 1 = target - cur := by omega
      rw [harg] at hp1
      show off + p + 1 = off + lineStartB c.text (target - cur)
      omega
    · rw [if_neg hcase]
      rw [ih target (cur + c.countLines) (off + c.len) (by omega)]
      rw [lineStartB_append,
        if_neg (by rw [chunk_countLines_eq] at hcase; omega)]
      have harg : target - cur - countNL c.text = target - (cur + c.countLines) := by
        rw [chunk_countLines_eq]
        omega
      rw [harg]
      simp [Chunk.len]
      omega

theorem Rope.lineToByte_fromText (t : Str) (n : Nat) :
    (Rope.fromText t).lineToByte n = lineStartB t n := by
  cases n with
  | zero => simp [Rope.lineToByte, lineStartB]
  | succ m =>
    rw [Rope.lineToByte, if_neg (Nat.succ_ne_zero m)]
    rw [lineToByteAux_eq _ (m + 1) 0 0 (Nat.succ_pos m)]
    have : (((Rope.fromText t).tree.items.map Chunk.text).flatten) =
        (Rope.fromText t).toStr := rfl
    rw [this, Rope.fromText_toStr]
    simp

theorem flatLine_none_of_countNL_lt (s : Str) :
    ∀ n, countNL s < n → flatLine s n = none := by
  induction s with
  | nil => intro n h; rfl
  | cons c rest ih =>
    intro n h
    rw [countNL_cons] at h
    cases n with
    | zero => omega
    | succ m =>
      simp only [flatLine]
      by_cases hc : c = '\n'
      · rw [if_pos hc]
        exact ih m (by simp [hc] at h; omega)
      · rw [if_neg hc]
        exact ih (m + 1) (by simp [hc] at h; omega)

theorem byteLen_takeWhile_le (p : Char → Bool) (s : Str) :
    byteLen (s.takeWhile p) ≤ byteLen s := by
  induction s with
  | nil => simp [byteLen_nil]
  | cons c rest ih =>
    by_cases hp : p c <;>
      simp [List.takeWhile_cons, hp, byteLen_cons, byteLen_nil] <;>
      omega

theorem byteLen_take_le (s : Str) : ∀ k, byteLen (s.take k) ≤ byteLen s := by
  induction s with
  | nil => intro k; simp
  | cons c rest ih =>
    intro k
    cases k with
    | zero => simp [byteLen_nil]
    | succ m =>
      simp only [List.take_succ_cons, byteLen_cons]
      have := ih m
      omega

theorem flatLine_some_le (s : Str) :
    ∀ n l, flatLine s n = some l → lineStartB s n + byteLen l ≤ byteLen s := by
  induction s with
  | nil => intro n l h; simp [flatLine] at h
  | cons c rest ih =>
    intro n l h
    cases n with
    | zero =>
      have hl : l = takeToNL (c :: rest) := by
        simpa [flatLine] using h.symm
      subst hl
      simp only [lineStartB, Nat.zero_add]
      exact byteLen_takeWhile_le _ _
    | succ m =>
      simp only [flatLine] at h
      rw [lineStartB_cons_succ, byteLen_cons]
      by_cases hc : c = '\n'
      · rw [if_pos hc] at h ⊢
        have := ih m l (by simpa [hc] using h)
        rw [hc, utf8Size_newline]
        omega
      · rw [if_neg hc] at h ⊢
        have := ih (m + 1) l (by simpa [hc] using h)
        omega

theorem Buffer.fromText_byteLen (t : Str) : (Buffer.fromText t).len = byteLen t :=
  Rope.fromText_len t

theorem Buffer.fromText_line (t : Str) (i : Nat) :
    (Buffer.fromText t).line i = flatLine t i := by
  simp only [Buffer.line, Buffer.fromText, Rope.line, Rope.fromText_toStr]

/-! ## Remaining claim theorems -/

/-- C6: for every text T, `Rope::from_text(T).to_string() == T`: chunking
into about-1KB boundary-aligned chunks and re-concatenating via tree
iteration is lossless. -/
theorem C6_fromText_toString_lossless (t : Str) : (Rope.fromText t).toStr = t :=
  Rope.fromText_toStr t

/-- C7: `Buffer::point_to_offset` never panics and clamps: for every point,
the result is within [0, len]; a row past the last line yields exactly the
end of the document; and a column past the end of an existing line yields
exactly the end of that line (line start plus the line's byte length). -/
theorem C7_pointToOffset_clamps_to_valid (t : Str) (p : Point) :
    (Buffer.fromText t).pointToOffset p ≤ (Buffer.fromText t).len ∧
    (countNL t < p.row →
      (Buffer.fromText t).pointToOffset p = (Buffer.fromText t).len) ∧
    (∀ lt, (Buffer.fromText t).line p.row = some lt → lt.length ≤ p.column →
      (Buffer.fromText t).pointToOffset p =
        (Buffer.fromText t).rope.lineToByte p.row + byteLen lt) := by
  have hlb : (Buffer.fromText t).rope.lineToByte p.row = lineStartB t p.row :=
    Rope.lineToByte_fromText t p.row
  have hline := Buffer.fromText_line t p.row
  have hlen := Buffer.fromText_byteLen t
  refine ⟨?_, ?_, ?_⟩
  · rw [Buffer.pointToOffset, hline, hlb, hlen]
    cases hfl : flatLine t p.row with
    | none => simpa using lineStartB_le t p.row
    | some l =>
      have h1 := flatLine_some_le t p.row l hfl
      have h2 := byteLen_take_le l p.column
      show lineStartB t p.row + byteLen (List.take p.column l) ≤ byteLen t
      omega
  · intro hrow
    rw [Buffer.pointToOffset, hline, hlb, hlen,
      flatLine_none_of_countNL_lt t p.row hrow]
    exact lineStartB_of_countNL_lt t p.row hrow
  · intro lt hlt hcol
    rw [hline] at hlt
    rw [Buffer.pointToOffset, hline, hlt, hlb]
    show lineStartB t p.row + byteLen (List.take p.column lt) =
      lineStartB t p.row + byteLen lt
    rw [List.take_of_length_le hcol]

theorem C7_pointToOffset_clamps_to_valid_witness :
    (Buffer.fromText ['a', '\n', 'b']).pointToOffset ⟨5, 7⟩ ≤
      (Buffer.fromText ['a', '\n', 'b']).len ∧
    (Buffer.fromText ['a', '\n', 'b']).pointToOffset ⟨5, 7⟩ =
      (Buffer.fromText ['a', '\n', 'b']).len ∧
    (Buffer.fromText ['a', '\n', 'b']).pointToOffset ⟨0, 7⟩ =
      (Buffer.fromText ['a', '\n', 'b']).rope.lineToByte 0 + byteLen ['a'] :=
  ⟨(C7_pointToOffset_clamps_to_valid ['a', '\n', 'b'] ⟨5, 7⟩).1,
   (C7_pointToOffset_clamps_to_valid ['a', '\n', 'b'] ⟨5, 7⟩).2.1 (by decide),
   (C7_pointToOffset_clamps_to_valid ['a', '\n', 'b'] ⟨0, 7⟩).2.2 ['a']
     (by decide) (by decide)⟩

/-! ## Copy-on-write frame lemmas -/

theorem list_getD_set_self {α : Type} (l : List α) (i : Nat) (x d : α)
    (h : i < l.length) : (l.set i x).getD i d = x := by
  rw [List.getD_eq_getElem?_getD, List.getElem?_set_self h]
  rfl

theorem list_getD_set_ne {α : Type} (l : List α) (i j : Nat) (x d : α)
    (h : i ≠ j) : (l.set i x).getD j d = l.getD j d := by
  rw [List.getD_eq_getElem?_getD, List.getElem?_set_ne h,
    ← List.getD_eq_getElem?_getD]

theorem list_getD_append_left {α : Type} (l m : List α) (i : Nat) (d : α)
    (h : i < l.length) : (l ++ m).getD i d = l.getD i d := by
  rw [List.getD_eq_getElem?_getD, List.getElem?_append, if_pos h,
    ← List.getD_eq_getElem?_getD]

theorem readRope_set_ne (l : List (Rope × Nat)) (j i : Nat) (x : Rope × Nat)
    (h : j ≠ i) :
    (RopeStore.mk (l.set j x)).readRope i = (RopeStore.mk l).readRope i := by
  simp only [RopeStore.readRope]
  rw [list_getD_set_ne _ _ _ _ _ h]

theorem cloneRef_basics (s : RopeStore) (i : Nat) (hi : i < s.slots.length) :
    (s.cloneRef i).readRope i = s.readRope i ∧
    (s.cloneRef i).refCount i = s.refCount i + 1 ∧
    (s.cloneRef i).slots.length = s.slots.length := by
  refine ⟨?_, ?_, by simp [RopeStore.cloneRef, List.length_set]⟩
  · simp only [RopeStore.readRope, RopeStore.cloneRef]
    rw [list_getD_set_self _ i _ _ hi]
  · simp only [RopeStore.refCount, RopeStore.cloneRef]
    rw [list_getD_set_self _ i _ _ hi]

theorem makeMut_sharedSlot (s : RopeStore) (i : Nat) (hi : i < s.slots.length)
    (hrc : 2 ≤ s.refCount i) :
    (s.makeMut i).2 = s.slots.length ∧
    (s.makeMut i).1.readRope i = s.readRope i := by
  have hcond : ¬ (s.refCount i ≤ 1) := by omega
  refine ⟨?_, ?_⟩
  · rw [RopeStore.makeMut, if_neg hcond]
  · rw [RopeStore.makeMut, if_neg hcond]
    show (RopeStore.mk ((s.slots.set i (s.readRope i, s.refCount i - 1)) ++
      [(s.readRope i, 1)])).readRope i = s.readRope i
    simp only [RopeStore.readRope]
    rw [list_getD_append_left _ _ i _ (by simpa [List.length_set] using hi)]
    rw [list_getD_set_self _ i _ _ hi]

theorem insertViaHandle_clone_readRope (s : RopeStore) (i pos : Nat) (text : Str)
    (hi : i < s.slots.length) (hrc : 1 ≤ s.refCount i) :
    ((s.cloneRef i).insertViaHandle i pos text).1.readRope i = s.readRope i := by
  obtain ⟨hcr, hcc, hcl⟩ := cloneRef_basics s i hi
  obtain ⟨hj, hmr⟩ := makeMut_sharedSlot (s.cloneRef i) i (by omega) (by omega)
  have hji : ((s.cloneRef i).makeMut i).2 ≠ i := by rw [hj, hcl]; omega
  calc ((s.cloneRef i).insertViaHandle i pos text).1.readRope i
      = ((s.cloneRef i).makeMut i).1.readRope i := readRope_set_ne _ _ _ _ hji
    _ = (s.cloneRef i).readRope i := hmr
    _ = s.readRope i := hcr

theorem deleteViaHandle_clone_readRope (s : RopeStore) (i start stop : Nat)
    (hi : i < s.slots.length) (hrc : 1 ≤ s.refCount i) :
    ((s.cloneRef i).deleteViaHandle i start stop).1.readRope i = s.readRope i := by
  obtain ⟨hcr, hcc, hcl⟩ := cloneRef_basics s i hi
  obtain ⟨hj, hmr⟩ := makeMut_sharedSlot (s.cloneRef i) i (by omega) (by omega)
  have hji : ((s.cloneRef i).makeMut i).2 ≠ i := by rw [hj, hcl]; omega
  calc ((s.cloneRef i).deleteViaHandle i start stop).1.readRope i
      = ((s.cloneRef i).makeMut i).1.readRope i := readRope_set_ne _ _ _ _ hji
    _ = (s.cloneRef i).readRope i := hmr
    _ = s.readRope i := hcr

/-- C5: with the `Arc<Rope>` sharing made explicit, editing a buffer whose
rope handle was cloned never changes what the other handle observes: the
clone raised the reference count, so `Arc::make_mut` copies the rope into a
fresh private slot before the mutation, leaving the shared slot's content,
length and line count intact.  Both handles name the same slot right after
the clone, so this covers mutation through either the clone or the
original. -/
theorem C5_mutation_preserves_cloned_handle (s : RopeStore) (i pos start stop : Nat)
    (text : Str) (hi : i < s.slots.length) (hrc : 1 ≤ s.refCount i) :
    ((((s.cloneRef i).insertViaHandle i pos text).1.readRope i).toStr =
        (s.readRope i).toStr ∧
      (((s.cloneRef i).insertViaHandle i pos text).1.readRope i).len =
        (s.readRope i).len ∧
      (((s.cloneRef i).insertViaHandle i pos text).1.readRope i).lineCount =
        (s.readRope i).lineCount) ∧
    ((((s.cloneRef i).deleteViaHandle i start stop).1.readRope i).toStr =
        (s.readRope i).toStr ∧
      (((s.cloneRef i).deleteViaHandle i start stop).1.readRope i).len =
        (s.readRope i).len ∧
      (((s.cloneRef i).deleteViaHandle i start stop).1.readRope i).lineCount =
        (s.readRope i).lineCount) := by
  have h1 := insertViaHandle_clone_readRope s i pos text hi hrc
  have h2 := deleteViaHandle_clone_readRope s i start stop hi hrc
  exact ⟨⟨by rw [h1], by rw [h1], by rw [h1]⟩, ⟨by rw [h2], by rw [h2], by rw [h2]⟩⟩

theorem C5_mutation_preserves_cloned_handle_witness :
    0 < (RopeStore.mk [(Rope.fromText ['a', '\n', 'b'], 1)]).slots.length ∧
    1 ≤ (RopeStore.mk [(Rope.fromText ['a', '\n', 'b'], 1)]).refCount 0 ∧
    ((((RopeStore.mk [(Rope.fromText ['a', '\n', 'b'], 1)]).cloneRef 0).insertViaHandle
        0 1 ['x']).1.readRope 0).toStr =
      ((RopeStore.mk [(Rope.fromText ['a', '\n', 'b'], 1)]).readRope 0).toStr ∧
    ((((RopeStore.mk [(Rope.fromText ['a', '\n', 'b'], 1)]).cloneRef 0).deleteViaHandle
        0 0 1).1.readRope 0).toStr =
      ((RopeStore.mk [(Rope.fromText ['a', '\n', 'b'], 1)]).readRope 0).toStr :=
  ⟨by decide, by decide,
    (C5_mutation_preserves_cloned_handle
      (RopeStore.mk [(Rope.fromText ['a', '\n', 'b'], 1)]) 0 1 0 1 ['x']
      (by decide) (by decide)).1.1,
    (C5_mutation_preserves_cloned_handle
      (RopeStore.mk [(Rope.fromText ['a', '\n', 'b'], 1)]) 0 1 0 1 ['x']
      (by decide) (by decide)).2.1⟩

end Zed
